import Mathlib

/-!
Verification development for the atomics examples in
`crates/threads/src/bin/simple-atomic.rs` of the rust-atomics-and-locks
study repository.

The file embeds the "Fetch_&_Modify: Synchronization" section of `main` as a
small-step transition system over an explicit state: `NUM_THREADS` worker
threads each perform `ADDS_PER_THREAD` iterations of
`atomic_num_done.fetch_add(1, Relaxed)` followed by a local gap computation
(`checked_sub` + `expect`), a conditional `atomic_max_diff.fetch_max`, and an
`unpark` of the main (observer) thread; the observer loops loading the
counter, breaking once it reaches `NUM_THREADS * ADDS_PER_THREAD` and
parking otherwise.  Shared atomics become fields of the state, one atomic
access is one transition label, and thread-local variables live in
per-worker records.  Ghost fields (`wlog`, `plog`, `obsReads`) record the
values returned by `fetch_add` and the values loaded by the observer, so
that properties about "the returned values across a run" are statable.

The "Compare_&_Exchange" section's `plus_just_one` is embedded as a pure
recursion over an interference oracle: each `compare_exchange_weak` attempt
sees the memory value the environment provides and possibly a spurious
failure, which is exactly the latitude the Rust operation has.
-/

namespace SimpleAtomic

/-- Rust `usize::checked_sub`: `some (a - b)` when `b ≤ a`, else `none`. -/
def checkedSub (a b : Nat) : Option Nat := if b ≤ a then some (a - b) else none

/-- The constant `NUM_THREADS` from `simple-atomic.rs`. -/
def NUM_THREADS : Nat := 50

/-- The constant `ADDS_PER_THREAD` from `simple-atomic.rs`. -/
def ADDS_PER_THREAD : Nat := 100

/-- Rust range `a..b` as the list of values the worker's `for` loop iterates
over (empty when `b ≤ a`). -/
def rustRange (a b : Nat) : List Nat := List.range' a (b - a)

/-- Thread-local state of one worker thread, mirroring the locals of the
spawned closure: `rem` counts the iterations the `for` loop still has to do,
`last` is `last_counter_value`, `localMax` is `max_diff`.  `pending` holds
the `incoming_counter_value` returned by a `fetch_add` whose remaining
iteration body (gap computation, `fetch_max`, `unpark`) has not executed
yet.  `wlog` (ghost) records every value `fetch_add` returned to this
worker, oldest first; `plog` (ghost) records the prefix of `wlog` whose
iteration bodies have completed. -/
structure WSt where
  rem : Nat
  last : Nat
  localMax : Nat
  pending : Option Nat
  wlog : List Nat
  plog : List Nat
deriving DecidableEq

/-- Phase of the observer (main) thread inside its progress loop:
`checking` = about to load `atomic_num_done`; `parking` = loaded a value
below the total and about to call `thread::park()`; `blocked` = suspended in
`park()` with no token; `done` = the loop has been exited via `break`. -/
inductive OPhase
  | checking
  | parking
  | blocked
  | done
deriving DecidableEq

/-- Global state of the Fetch_&_Modify section: the two shared atomics
(`counter` = `atomic_num_done`, `maxDiff` = `atomic_max_diff`), the
observer's park token and phase, the observer local `lastRead` (last value
it loaded), the ghost list `obsReads` of all values the observer loaded,
a `panicked` flag set when a worker's `expect` fires, and the worker
states. -/
structure Sys (W : Nat) where
  counter : Nat
  maxDiff : Nat
  token : Bool
  phase : OPhase
  lastRead : Nat
  obsReads : List Nat
  panicked : Bool
  w : Fin W → WSt

/-- Transition labels: `workA t` is worker `t`'s atomic
`fetch_add(1, Relaxed)` (together with the purely local computation of
`curr_diff`); `workB t` is the rest of that iteration body (the conditional
`fetch_max` and the `unpark`); `obs` is one step of the observer loop. -/
inductive Lab (W : Nat)
  | workA (t : Fin W)
  | workB (t : Fin W)
  | obs

/-- Initial worker-local state: `U` iterations to do, `last_counter_value`
and `max_diff` zero. -/
def initW (U : Nat) : WSt :=
  { rem := U, last := 0, localMax := 0, pending := none, wlog := [], plog := [] }

/-- Initial global state: both atomics zero, no park token, observer about
to do its first load. -/
def init (W U : Nat) : Sys W :=
  { counter := 0, maxDiff := 0, token := false, phase := .checking,
    lastRead := 0, obsReads := [], panicked := false, w := fun _ => initW U }

/-- Effect of `atomic_max_diff.fetch_max(curr, Relaxed)` guarded by
`curr_diff > max_diff`, together with the local updates
`max_diff = max_diff.max(curr_diff)` and `last_counter_value = incoming`,
finishing worker `t`'s iteration whose `fetch_add` returned `v`. -/
def fetchMaxUpd {W : Nat} (s : Sys W) (t : Fin W) (v curr : Nat) : Sys W :=
  { s with
    maxDiff := if (s.w t).localMax < curr then max s.maxDiff curr else s.maxDiff,
    w := Function.update s.w t
      { s.w t with
        pending := none,
        last := v,
        localMax := if (s.w t).localMax < curr then curr else (s.w t).localMax,
        plog := (s.w t).plog ++ [v] } }

/-- Effect of `main_thread_handle.unpark()`: if the observer is blocked in
`park()` it wakes (the token is consumed by the returning `park`), otherwise
the token is made available. -/
def wake {W : Nat} (s : Sys W) : Sys W :=
  if s.phase = .blocked then { s with phase := .checking } else { s with token := true }

/-- One small step of the system.  `none` means the label is not enabled in
`s` (the worker has no work / no pending iteration, or the observer is
suspended or has exited its loop, or the process has panicked). -/
def step (W U : Nat) (s : Sys W) (l : Lab W) : Option (Sys W) :=
  if s.panicked then none
  else
    match l with
    | .workA t =>
        if (s.w t).pending = none ∧ 0 < (s.w t).rem then
          some { s with
            counter := s.counter + 1,
            w := Function.update s.w t
              { s.w t with
                rem := (s.w t).rem - 1,
                pending := some s.counter,
                wlog := (s.w t).wlog ++ [s.counter] } }
        else none
    | .workB t =>
        match (s.w t).pending with
        | none => none
        | some v =>
            match checkedSub v (s.w t).last with
            | none => some { s with panicked := true }
            | some curr => some (wake (fetchMaxUpd s t v curr))
    | .obs =>
        match s.phase with
        | .checking =>
            if W * U ≤ s.counter then
              some { s with phase := .done, lastRead := s.counter,
                            obsReads := s.obsReads ++ [s.counter] }
            else
              some { s with phase := .parking, lastRead := s.counter,
                            obsReads := s.obsReads ++ [s.counter] }
        | .parking =>
            if s.token then some { s with token := false, phase := .checking }
            else some { s with phase := .blocked }
        | .blocked => none
        | .done => none

/-- Run a schedule of labels from a state; `none` if some label is not
enabled where it occurs. -/
def run (W U : Nat) (s : Sys W) : List (Lab W) → Option (Sys W)
  | [] => some s
  | l :: ls =>
      match step W U s l with
      | none => none
      | some s1 => run W U s1 ls

/-- States reachable from the initial state by enabled steps, under any
interleaving. -/
inductive Reachable (W U : Nat) : Sys W → Prop
  | init : Reachable W U (init W U)
  | step {s : Sys W} {l : Lab W} {s1 : Sys W} :
      Reachable W U s → step W U s l = some s1 → Reachable W U s1

/-- No label is enabled: the run can make no further step. -/
def Stuck (W U : Nat) (s : Sys W) : Prop :=
  (∀ t, (step W U s (.workA t)).isNone = true) ∧
  (∀ t, (step W U s (.workB t)).isNone = true) ∧
  (step W U s .obs).isNone = true

/-- Is worker `t` in the middle of an iteration (its `fetch_add` done, the
rest of the body pending)? Counted as 0/1 for summing. -/
def busyBit (wst : WSt) : Nat := if wst.pending = none then 0 else 1

/-- Weight of the observer phase inside the termination measure. -/
def phaseWeight : OPhase → Nat
  | .checking => 2
  | .parking => 1
  | .blocked => 0
  | .done => 0

/-- Termination measure: strictly decreases along every enabled step, so
every execution of the system is finite. -/
def V {W : Nat} (s : Sys W) : Nat :=
  6 * (∑ t, (s.w t).rem) + 5 * (∑ t, busyBit (s.w t)) +
    2 * (if s.token then 1 else 0) + phaseWeight s.phase +
    (if s.panicked then 0 else 1)

/-- Cursor-based gap fold: starting from cursor `c` and running maximum `m`,
each element `r` contributes the gap `r - c` and moves the cursor to `r`.
Returns the final cursor and the maximum gap seen. -/
def gapFold : Nat → Nat → List Nat → Nat × Nat
  | c, m, [] => (c, m)
  | c, m, r :: rest => gapFold r (max m (r - c)) rest

/-- Largest gap between consecutive values of a list, the first value being
measured against an initial cursor of 0 (exactly the accounting each worker
performs on its own `fetch_add` return values, starting from
`last_counter_value = 0`). -/
def maxGapFrom0 (l : List Nat) : Nat := (gapFold 0 0 l).2

/-- Modelled from the spec (section 4.1, `observe_and_maybe_wait`), for
comparison against the code: the single shared `ObserverCursor` starts at 0;
each observer read `count` contributes `gap = count - ObserverCursor`,
`MaxObservationGap` is updated by atomic max with `gap`, and the cursor
becomes `count`. -/
def specObserverMaxGap (reads : List Nat) : Nat := (gapFold 0 0 reads).2

/-- Modelled from the spec (section 8, gap correctness), for comparison
against the code, reading "maximum over all consecutive pairs of observer
reads of (later - earlier)" literally: the first read initialises the
cursor and contributes no gap. -/
def specPairwiseMaxGap : List Nat → Nat
  | [] => 0
  | r :: rest => (gapFold r 0 rest).2

/-- The gap computation of the worker loop body:
`incoming_counter_value.checked_sub(last_counter_value).expect(...)`; an
`error` value is the fatal panic. -/
def observed_diff (incoming last : Nat) : Except String Nat :=
  match checkedSub incoming last with
  | some d => Except.ok d
  | none => Except.error "values should be monotonic increasing"

/-- Does this outcome of the gap computation abort the run? -/
def isFatal : Except String Nat → Bool
  | .error _ => true
  | .ok _ => false

/-- The state after a worker's `expect` fired: the process is panicking and
no thread takes further steps. -/
def panicState {W : Nat} (s : Sys W) : Sys W := { s with panicked := true }

/-- Result of one call of `plus_just_one` under an interference oracle:
`ret previous_value new_value final_mem` is a normal return (with
`final_mem` the value the atomic holds right after the successful
`compare_exchange_weak`); `unreachableHit` means the `unreachable!` in the
`Ok` arm executed; `looping current` means the oracle ran out while the
retry loop was still going, `current` being the value the next attempt
would expect. -/
inductive PlusResult
  | ret (previous_value new_value final_mem : Int)
  | unreachableHit
  | looping (current : Int)
deriving DecidableEq

/-- The `plus_just_one` function of `simple-atomic.rs`.  `current` is the
value the initial `load(Relaxed)` returned.  The oracle `env` supplies, for
each `compare_exchange_weak` attempt, the value the atomic actually holds at
that moment and whether the weak exchange fails spuriously.  The exchange
succeeds only when the held value equals the expected `current` and the
attempt is not spurious; on failure the `Err` value is the held value, which
becomes the new `current` (retry with the freshly observed value). -/
def plus_just_one : Int → List (Int × Bool) → PlusResult
  | current, [] => .looping current
  | current, (mem, spurious) :: env =>
      if mem = current ∧ spurious = false then
        if mem = current then .ret mem (current + 1) (current + 1)
        else .unreachableHit
      else plus_just_one mem env

/-- The final check of the Compare_&_Exchange section: `no_non_one_diffs`
starts `true` and is stored `false` whenever a call's
`new_value - previous_value` differs from 1. -/
def no_non_one_diffs (results : List (Int × Int)) : Bool :=
  results.foldl (fun flag pr => if pr.2 - pr.1 ≠ 1 then false else flag) true

/-- Does `plus_just_one` hit its `unreachable!`? -/
def hitsUnreachable : PlusResult → Bool
  | .unreachableHit => true
  | _ => false

/-- The multiset of `fetch_add` return values a worker has received. -/
def mlog (wst : WSt) : Multiset Nat := (wst.wlog : Multiset Nat)

/-- Invariant of the Fetch_&_Modify system, preserved by every step from
the initial state. -/
structure Inv (W U : Nat) (s : Sys W) : Prop where
  alive : s.panicked = false
  cnt : s.counter + (∑ t, (s.w t).rem) = W * U
  log : (∑ t, mlog (s.w t)) = Multiset.range s.counter
  lastLe : ∀ t, (s.w t).last ≤ s.counter
  pend : ∀ t v, (s.w t).pending = some v → (s.w t).last ≤ v ∧ v < s.counter
  gf : ∀ t, gapFold 0 0 (s.w t).plog = ((s.w t).last, (s.w t).localMax)
  mx : s.maxDiff = Finset.univ.sup (fun t => (s.w t).localMax)
  wp : ∀ t, (s.w t).wlog = (s.w t).plog ++ (s.w t).pending.toList
  done_ge : s.phase = .done → W * U ≤ s.counter
  parkJ : s.phase = .parking →
      s.lastRead < W * U ∧
        (s.token = true ∨ s.counter ≤ s.lastRead + ∑ t, busyBit (s.w t))
  blockK : s.phase = .blocked →
      s.lastRead < W * U ∧ s.counter ≤ s.lastRead + ∑ t, busyBit (s.w t)

/-- Concrete two-worker, one-unit-each schedule used to compare the code's
`atomic_max_diff` with the spec's observer-cursor gap: both workers run
their full iteration, then the observer wakes once and sees completion. -/
def c2sched : List (Lab 2) := [.workA 0, .workB 0, .workA 1, .workB 1, .obs]

/-- End state of the `c2sched` run. -/
def c2end : Sys 2 := (run 2 1 (init 2 1) c2sched).getD (init 2 1)

/-- State of a one-worker, one-unit run after the worker's full iteration. -/
def s11 : Sys 1 := (run 1 1 (init 1 1) [.workA 0, .workB 0]).getD (init 1 1)

/-- State of a one-worker, zero-unit run after the observer's first check:
the observer has exited its loop. -/
def sDone : Sys 1 := (run 1 0 (init 1 0) [.obs]).getD (init 1 0)

/-- State of a one-worker, one-unit run after the observer's first check:
the observer read 0 < 1 and is about to park. -/
def sPark : Sys 1 := (run 1 1 (init 1 1) [.obs]).getD (init 1 1)

/-- State of a one-worker, one-unit run after the worker's `fetch_add`. -/
def sA : Sys 1 := (run 1 1 (init 1 1) [.workA 0]).getD (init 1 1)

/-- State after `sA` once the worker also finished the iteration body. -/
def sB : Sys 1 := (run 1 1 (init 1 1) [.workA 0, .workB 0]).getD (init 1 1)

/-- An artificial (unreachable) state whose worker observed a counter value
below its own cursor, to exercise the fail-fast branch. -/
def sBad : Sys 1 :=
  { init 1 1 with
    w := fun _ =>
      { rem := 1, last := 5, localMax := 0, pending := some 0,
        wlog := [0], plog := [] } }

/-- Post-composing a pointwise projection with a pointwise update. -/
lemma comp_update {W : Nat} {β : Type} (w : Fin W → WSt) (t : Fin W) (a : WSt)
    (g : WSt → β) :
    (fun x => g (Function.update w t a x)) = Function.update (fun x => g (w x)) t (g a) := by
  funext x
  by_cases h : x = t
  · subst h; simp
  · simp [Function.update_noteq h]

/-- Summing an updated family: the new total plus the old entry equals the
old total plus the new entry. -/
lemma sum_update_add {M : Type} [AddCommMonoid M] {W : Nat} (f : Fin W → M)
    (t : Fin W) (v : M) :
    (∑ x, Function.update f t v x) + f t = (∑ x, f x) + v := by
  rw [Finset.sum_update_of_mem (Finset.mem_univ t),
    Finset.sum_eq_sum_diff_singleton_add (Finset.mem_univ t) f]
  abel

/-- Raising one entry of a family to a value at least as large replaces the
supremum by its max with that value. -/
lemma sup_update_of_le {W : Nat} (f : Fin W → Nat) (t : Fin W) (c : Nat)
    (h : f t ≤ c) :
    Finset.univ.sup (Function.update f t c) = max (Finset.univ.sup f) c := by
  apply le_antisymm
  · apply Finset.sup_le
    intro x _
    by_cases hx : x = t
    · subst hx; simp
    · calc Function.update f t c x = f x := Function.update_noteq hx _ _
        _ ≤ Finset.univ.sup f := Finset.le_sup (Finset.mem_univ x)
        _ ≤ max (Finset.univ.sup f) c := le_max_left _ _
  · apply max_le
    · apply Finset.sup_le
      intro x _
      by_cases hx : x = t
      · subst hx
        calc f x ≤ c := h
          _ = Function.update f x c x := (Function.update_same x c f).symm
          _ ≤ _ := Finset.le_sup (Finset.mem_univ x)
      · calc f x = Function.update f t c x := (Function.update_noteq hx _ _).symm
          _ ≤ _ := Finset.le_sup (Finset.mem_univ x)
    · calc c = Function.update f t c t := (Function.update_same t c f).symm
        _ ≤ _ := Finset.le_sup (Finset.mem_univ t)

/-- The conditional update of `max_diff` in the worker body is a maximum. -/
lemma ite_lt_max (a b : Nat) : (if a < b then b else a) = max a b := by
  rcases Nat.lt_or_ge a b with h | h
  · rw [if_pos h, Nat.max_eq_right h.le]
  · rw [if_neg (Nat.not_lt.mpr h), Nat.max_eq_left h]

/-- Appending one element to a gap fold. -/
lemma gapFold_append (c m v : Nat) (l : List Nat) :
    gapFold c m (l ++ [v]) = (v, max (gapFold c m l).2 (v - (gapFold c m l).1)) := by
  induction l generalizing c m with
  | nil => simp [gapFold]
  | cons r rest ih => simp [gapFold, ih]

/-- Any successful run from a reachable state ends in a reachable state. -/
lemma reachable_of_run (W U : Nat) (ls : List (Lab W)) {s0 : Sys W}
    (h0 : Reachable W U s0) (h : (run W U s0 ls).isSome = true) (d : Sys W) :
    Reachable W U ((run W U s0 ls).getD d) := by
  induction ls generalizing s0 with
  | nil => simpa [run] using h0
  | cons l ls ih =>
      cases hst : step W U s0 l with
      | none => rw [run, hst] at h; simp at h
      | some s1 =>
          rw [run, hst] at h ⊢
          exact ih (Reachable.step h0 hst) h

/-- Summing a projection of an updated worker family. -/
lemma sum_proj_update {M : Type} [AddCommMonoid M] {W : Nat} (w : Fin W → WSt)
    (t : Fin W) (a : WSt) (g : WSt → M) :
    (∑ x, g (Function.update w t a x)) + g (w t) = (∑ x, g (w x)) + g a := by
  have h := comp_update w t a g
  calc (∑ x, g (Function.update w t a x)) + g (w t)
      = (∑ x, Function.update (fun x => g (w x)) t (g a) x) + g (w t) := by rw [h]
    _ = (∑ x, g (w x)) + g a := sum_update_add (fun x => g (w x)) t (g a)

/-- The initial state satisfies the invariant. -/
lemma inv_init (W U : Nat) : Inv W U (init W U) := by
  refine ⟨rfl, ?_, ?_, ?_, ?_, ?_, ?_, ?_, ?_, ?_, ?_⟩
  · simp [init, initW, Finset.sum_const, Finset.card_univ, mul_comm]
  · simp [init, initW, mlog]
  · intro t; simp [init, initW]
  · intro t v hv; simp [init, initW] at hv
  · intro t; simp [init, initW, gapFold]
  · exact Nat.le_antisymm (Nat.zero_le _)
      (Finset.sup_le (fun x _ => by simp [init, initW]))
  · intro t; simp [init, initW]
  · intro h; simp [init] at h
  · intro h; simp [init] at h
  · intro h; simp [init] at h

/-- A worker's `fetch_add` step preserves the invariant. -/
lemma inv_stepA {W U : Nat} {s : Sys W} (hs : Inv W U s) (t : Fin W)
    (hp : (s.w t).pending = none) (hr : 0 < (s.w t).rem) :
    Inv W U
      { s with
        counter := s.counter + 1,
        w := Function.update s.w t
          { s.w t with
            rem := (s.w t).rem - 1,
            pending := some s.counter,
            wlog := (s.w t).wlog ++ [s.counter] } } := by
  set wA : WSt :=
    { s.w t with
      rem := (s.w t).rem - 1,
      pending := some s.counter,
      wlog := (s.w t).wlog ++ [s.counter] } with hwA
  have hrem := sum_proj_update s.w t wA WSt.rem
  have hbusy := sum_proj_update s.w t wA busyBit
  have hbusy_old : busyBit (s.w t) = 0 := by simp [busyBit, hp]
  have hbusy_new : busyBit wA = 1 := rfl
  have hml := sum_proj_update s.w t wA mlog
  have hml_new : mlog wA = mlog (s.w t) + {s.counter} := rfl
  refine ⟨hs.alive, ?_, ?_, ?_, ?_, ?_, ?_, ?_, ?_, ?_, ?_⟩ <;> dsimp only
  · have hc := hs.cnt
    have hwr : wA.rem = (s.w t).rem - 1 := rfl
    omega
  · have hl := hs.log
    have hnew : (∑ x, mlog (Function.update s.w t wA x))
        = Multiset.range s.counter + {s.counter} := by
      have h2 : (∑ x, mlog (Function.update s.w t wA x)) + mlog (s.w t)
          = Multiset.range s.counter + {s.counter} + mlog (s.w t) := by
        rw [hml, hml_new, hl]; abel
      exact add_right_cancel h2
    rw [hnew, Multiset.range_succ,
      add_comm (Multiset.range s.counter) ({s.counter} : Multiset Nat),
      Multiset.singleton_add]
  · intro x
    by_cases hx : x = t
    · subst hx
      rw [Function.update_same]
      exact Nat.le_succ_of_le (hs.lastLe x)
    · rw [Function.update_noteq hx]
      exact Nat.le_succ_of_le (hs.lastLe x)
  · intro x v hv
    by_cases hx : x = t
    · subst hx
      rw [Function.update_same] at hv
      have hv2 : s.counter = v := by
        rw [hwA] at hv
        exact Option.some_injective _ hv
      subst hv2
      rw [Function.update_same]
      exact ⟨hs.lastLe x, Nat.lt_succ_self _⟩
    · rw [Function.update_noteq hx] at hv
      rw [Function.update_noteq hx]
      exact ⟨(hs.pend x v hv).1, Nat.lt_succ_of_lt (hs.pend x v hv).2⟩
  · intro x
    by_cases hx : x = t
    · subst hx; rw [Function.update_same]; exact hs.gf x
    · rw [Function.update_noteq hx]; exact hs.gf x
  · have hfun : (fun x => (Function.update s.w t wA x).localMax)
        = fun x => (s.w x).localMax := by
      funext x
      by_cases hx : x = t
      · subst hx; rw [Function.update_same]
      · rw [Function.update_noteq hx]
    rw [hfun]
    exact hs.mx
  · intro x
    by_cases hx : x = t
    · subst hx
      rw [Function.update_same]
      have hwpx := hs.wp x
      rw [hp] at hwpx
      simp only [Option.toList_none, List.append_nil] at hwpx
      rw [hwA]
      dsimp only
      rw [hwpx]
      rfl
    · rw [Function.update_noteq hx]; exact hs.wp x
  · intro h
    exact Nat.le_succ_of_le (hs.done_ge h)
  · intro h
    refine ⟨(hs.parkJ h).1, ?_⟩
    rcases (hs.parkJ h).2 with ht | hb
    · exact Or.inl ht
    · right; omega
  · intro h
    refine ⟨(hs.blockK h).1, ?_⟩
    have hb := (hs.blockK h).2
    omega

/-- Core preservation argument for a worker's iteration-body step, stated
over an arbitrary updated worker record constrained field by field. -/
lemma inv_stepB_assembled {W U : Nat} {s : Sys W} (hs : Inv W U s) (t : Fin W)
    (v curr : Nat) (wB : WSt)
    (hv : (s.w t).pending = some v)
    (hcu : curr = v - (s.w t).last)
    (hrem : wB.rem = (s.w t).rem)
    (hlast : wB.last = v)
    (hlm : wB.localMax = if (s.w t).localMax < curr then curr else (s.w t).localMax)
    (hpd : wB.pending = none)
    (hwl : wB.wlog = (s.w t).wlog)
    (hpl : wB.plog = (s.w t).plog ++ [v])
    (newMD : Nat)
    (hMD : newMD = if (s.w t).localMax < curr then max s.maxDiff curr else s.maxDiff)
    (newPhase : OPhase) (newToken : Bool)
    (hPT : (newPhase = .checking ∧ newToken = s.token) ∨
           (newPhase = s.phase ∧ s.phase ≠ .blocked ∧ newToken = true)) :
    Inv W U
      { counter := s.counter, maxDiff := newMD, token := newToken,
        phase := newPhase, lastRead := s.lastRead, obsReads := s.obsReads,
        panicked := s.panicked, w := Function.update s.w t wB } := by
  have hvc : v < s.counter := (hs.pend t v hv).2
  have hLle : (s.w t).localMax ≤ s.maxDiff := by
    rw [hs.mx]
    exact @Finset.le_sup Nat (Fin W) _ _ Finset.univ
      (fun x => (s.w x).localMax) t (Finset.mem_univ t)
  have hlm2 : wB.localMax = max (s.w t).localMax curr := by rw [hlm, ite_lt_max]
  have hLleB : (s.w t).localMax ≤ wB.localMax := by rw [hlm2]; exact le_max_left _ _
  have hMD2 : newMD = max s.maxDiff wB.localMax := by
    by_cases hm : (s.w t).localMax < curr
    · rw [hMD, if_pos hm, hlm2, Nat.max_eq_right hm.le]
    · rw [hMD, if_neg hm, hlm2, Nat.max_eq_left (Nat.not_lt.mp hm),
        Nat.max_eq_left hLle]
  refine ⟨hs.alive, ?_, ?_, ?_, ?_, ?_, ?_, ?_, ?_, ?_, ?_⟩ <;> dsimp only
  · have h := sum_proj_update s.w t wB WSt.rem
    rw [hrem] at h
    have h2 := add_right_cancel h
    have hc := hs.cnt
    omega
  · have h := sum_proj_update s.w t wB mlog
    have hmb : mlog wB = mlog (s.w t) := by simp [mlog, hwl]
    rw [hmb] at h
    rw [add_right_cancel h]
    exact hs.log
  · intro x
    by_cases hx : x = t
    · subst hx
      rw [Function.update_same, hlast]
      exact hvc.le
    · rw [Function.update_noteq hx]
      exact hs.lastLe x
  · intro x v' hv'
    by_cases hx : x = t
    · subst hx
      rw [Function.update_same, hpd] at hv'
      exact Option.noConfusion hv'
    · rw [Function.update_noteq hx] at hv'
      rw [Function.update_noteq hx]
      exact hs.pend x v' hv'
  · intro x
    by_cases hx : x = t
    · subst hx
      rw [Function.update_same, hpl, gapFold_append, hs.gf x, hlast, hlm2, hcu]
    · rw [Function.update_noteq hx]
      exact hs.gf x
  · rw [comp_update s.w t wB WSt.localMax,
      sup_update_of_le (fun x => (s.w x).localMax) t wB.localMax hLleB,
      ← hs.mx]
    exact hMD2
  · intro x
    by_cases hx : x = t
    · subst hx
      rw [Function.update_same, hwl, hpl, hpd, hs.wp x, hv]
      simp
    · rw [Function.update_noteq hx]
      exact hs.wp x
  · rcases hPT with ⟨hph, _⟩ | ⟨hph, _, _⟩
    · intro h; rw [hph] at h; simp at h
    · intro h
      rw [hph] at h
      exact hs.done_ge h
  · rcases hPT with ⟨hph, _⟩ | ⟨hph, _, htk⟩
    · intro h; rw [hph] at h; simp at h
    · intro h
      rw [hph] at h
      exact ⟨(hs.parkJ h).1, Or.inl htk⟩
  · rcases hPT with ⟨hph, _⟩ | ⟨hph, hnb, _⟩
    · intro h; rw [hph] at h; simp at h
    · intro h
      rw [hph] at h
      exact absurd h hnb

/-- A worker's iteration-body step (`checked_sub` succeeding, conditional
`fetch_max`, `unpark`) preserves the invariant. -/
lemma inv_stepB {W U : Nat} {s : Sys W} (hs : Inv W U s) (t : Fin W) (v curr : Nat)
    (hv : (s.w t).pending = some v) (hc : checkedSub v (s.w t).last = some curr) :
    Inv W U (wake (fetchMaxUpd s t v curr)) := by
  have hle : (s.w t).last ≤ v := (hs.pend t v hv).1
  have hcu : curr = v - (s.w t).last := by
    rw [checkedSub, if_pos hle] at hc
    exact (Option.some_injective _ hc).symm
  unfold wake
  by_cases hb : (fetchMaxUpd s t v curr).phase = .blocked
  · rw [if_pos hb]
    exact inv_stepB_assembled hs t v curr
      { s.w t with
        pending := none,
        last := v,
        localMax := (if (s.w t).localMax < curr then curr else (s.w t).localMax),
        plog := (s.w t).plog ++ [v] }
      hv hcu rfl rfl rfl rfl rfl rfl
      (if (s.w t).localMax < curr then max s.maxDiff curr else s.maxDiff) rfl
      .checking s.token (Or.inl ⟨rfl, rfl⟩)
  · rw [if_neg hb]
    have hb2 : ¬s.phase = OPhase.blocked := hb
    exact inv_stepB_assembled hs t v curr
      { s.w t with
        pending := none,
        last := v,
        localMax := (if (s.w t).localMax < curr then curr else (s.w t).localMax),
        plog := (s.w t).plog ++ [v] }
      hv hcu rfl rfl rfl rfl rfl rfl
      (if (s.w t).localMax < curr then max s.maxDiff curr else s.maxDiff) rfl
      s.phase true (Or.inr ⟨rfl, hb2, rfl⟩)

/-- An observer step preserves the invariant. -/
lemma inv_stepObs {W U : Nat} {s s1 : Sys W} (hs : Inv W U s)
    (h : step W U s .obs = some s1) : Inv W U s1 := by
  have hnp : ¬(s.panicked = true) := by simp [hs.alive]
  simp only [step] at h
  rw [if_neg hnp] at h
  cases hph : s.phase with
  | checking =>
      simp only [hph] at h
      by_cases hc : W * U ≤ s.counter
      · rw [if_pos hc] at h
        injection h with h1
        rw [← h1]
        refine ⟨hs.alive, hs.cnt, hs.log, hs.lastLe, hs.pend, hs.gf, hs.mx, hs.wp,
          ?_, ?_, ?_⟩ <;> dsimp only
        · intro _; exact hc
        · intro hp; simp at hp
        · intro hp; simp at hp
      · rw [if_neg hc] at h
        injection h with h1
        rw [← h1]
        refine ⟨hs.alive, hs.cnt, hs.log, hs.lastLe, hs.pend, hs.gf, hs.mx, hs.wp,
          ?_, ?_, ?_⟩ <;> dsimp only
        · intro hp; simp at hp
        · intro _
          exact ⟨Nat.lt_of_not_le hc, Or.inr (Nat.le_add_right _ _)⟩
        · intro hp; simp at hp
  | parking =>
      simp only [hph] at h
      by_cases htk : s.token = true
      · rw [if_pos htk] at h
        injection h with h1
        rw [← h1]
        refine ⟨hs.alive, hs.cnt, hs.log, hs.lastLe, hs.pend, hs.gf, hs.mx, hs.wp,
          ?_, ?_, ?_⟩ <;> dsimp only
        · intro hp; simp at hp
        · intro hp; simp at hp
        · intro hp; simp at hp
      · rw [if_neg htk] at h
        injection h with h1
        rw [← h1]
        have hJ := hs.parkJ hph
        refine ⟨hs.alive, hs.cnt, hs.log, hs.lastLe, hs.pend, hs.gf, hs.mx, hs.wp,
          ?_, ?_, ?_⟩ <;> dsimp only
        · intro hp; simp at hp
        · intro hp; simp at hp
        · intro _
          refine ⟨hJ.1, ?_⟩
          rcases hJ.2 with ht | hb
          · exact absurd ht htk
          · exact hb
  | blocked => simp only [hph] at h; exact Option.noConfusion h
  | done => simp only [hph] at h; exact Option.noConfusion h

/-- Every enabled step preserves the invariant. -/
lemma inv_step {W U : Nat} {s s1 : Sys W} {l : Lab W} (hs : Inv W U s)
    (h : step W U s l = some s1) : Inv W U s1 := by
  cases l with
  | workA t =>
      have hnp : ¬(s.panicked = true) := by simp [hs.alive]
      simp only [step] at h
      rw [if_neg hnp] at h
      by_cases hg : (s.w t).pending = none ∧ 0 < (s.w t).rem
      · rw [if_pos hg] at h
        injection h with h1
        rw [← h1]
        exact inv_stepA hs t hg.1 hg.2
      · rw [if_neg hg] at h
        exact Option.noConfusion h
  | workB t =>
      have hnp : ¬(s.panicked = true) := by simp [hs.alive]
      simp only [step] at h
      rw [if_neg hnp] at h
      cases hv : (s.w t).pending with
      | none => simp only [hv] at h; exact Option.noConfusion h
      | some v =>
          simp only [hv] at h
          cases hcs : checkedSub v (s.w t).last with
          | none =>
              have hle : (s.w t).last ≤ v := (hs.pend t v hv).1
              rw [checkedSub, if_pos hle] at hcs
              exact Option.noConfusion hcs
          | some curr =>
              simp only [hcs] at h
              injection h with h1
              rw [← h1]
              exact inv_stepB hs t v curr hv hcs
  | obs => exact inv_stepObs hs h

/-- Every reachable state satisfies the invariant. -/
lemma reachable_inv {W U : Nat} {s : Sys W} (hs : Reachable W U s) : Inv W U s := by
  induction hs with
  | init => exact inv_init W U
  | step _ h ih => exact inv_step ih h

/-- Characterisation of an enabled `fetch_add` step. -/
lemma stepA_eq {W U : Nat} {s : Sys W} {t : Fin W} (hnp : s.panicked = false)
    (hp : (s.w t).pending = none) (hr : 0 < (s.w t).rem) :
    step W U s (.workA t) =
      some { s with
        counter := s.counter + 1,
        w := Function.update s.w t
          { s.w t with
            rem := (s.w t).rem - 1,
            pending := some s.counter,
            wlog := (s.w t).wlog ++ [s.counter] } } := by
  simp only [step]
  rw [if_neg (by simp [hnp] : ¬(s.panicked = true)), if_pos ⟨hp, hr⟩]

/-- Characterisation of an enabled iteration-body step without panic. -/
lemma stepB_eq {W U : Nat} {s : Sys W} {t : Fin W} {v : Nat}
    (hnp : s.panicked = false) (hv : (s.w t).pending = some v)
    (hle : (s.w t).last ≤ v) :
    step W U s (.workB t) = some (wake (fetchMaxUpd s t v (v - (s.w t).last))) := by
  simp only [step]
  rw [if_neg (by simp [hnp] : ¬(s.panicked = true))]
  simp only [hv]
  rw [checkedSub, if_pos hle]

/-- Characterisation of the iteration-body step when the gap is negative:
the `expect` fires. -/
lemma stepB_panic_eq {W U : Nat} {s : Sys W} {t : Fin W} {v : Nat}
    (hnp : s.panicked = false) (hv : (s.w t).pending = some v)
    (hgt : v < (s.w t).last) :
    step W U s (.workB t) = some (panicState s) := by
  simp only [step]
  rw [if_neg (by simp [hnp] : ¬(s.panicked = true))]
  simp only [hv]
  rw [checkedSub, if_neg (by omega : ¬((s.w t).last ≤ v))]
  rfl

/-- Characterisation of the observer's check when the total is reached. -/
lemma stepObs_done_eq {W U : Nat} {s : Sys W} (hnp : s.panicked = false)
    (hph : s.phase = .checking) (hc : W * U ≤ s.counter) :
    step W U s .obs =
      some { s with phase := .done, lastRead := s.counter,
                    obsReads := s.obsReads ++ [s.counter] } := by
  simp only [step]
  rw [if_neg (by simp [hnp] : ¬(s.panicked = true))]
  simp only [hph]
  rw [if_pos hc]

/-- Characterisation of the observer's check when the total is not reached. -/
lemma stepObs_park_eq {W U : Nat} {s : Sys W} (hnp : s.panicked = false)
    (hph : s.phase = .checking) (hc : s.counter < W * U) :
    step W U s .obs =
      some { s with phase := .parking, lastRead := s.counter,
                    obsReads := s.obsReads ++ [s.counter] } := by
  simp only [step]
  rw [if_neg (by simp [hnp] : ¬(s.panicked = true))]
  simp only [hph]
  rw [if_neg (by omega : ¬(W * U ≤ s.counter))]

/-- Characterisation of `park()` consuming an available token. -/
lemma stepObs_consume_eq {W U : Nat} {s : Sys W} (hnp : s.panicked = false)
    (hph : s.phase = .parking) (htk : s.token = true) :
    step W U s .obs = some { s with token := false, phase := .checking } := by
  simp only [step]
  rw [if_neg (by simp [hnp] : ¬(s.panicked = true))]
  simp only [hph]
  rw [if_pos htk]

/-- Characterisation of `park()` blocking when no token is available. -/
lemma stepObs_block_eq {W U : Nat} {s : Sys W} (hnp : s.panicked = false)
    (hph : s.phase = .parking) (htk : s.token = false) :
    step W U s .obs = some { s with phase := .blocked } := by
  simp only [step]
  rw [if_neg (by simp [hnp] : ¬(s.panicked = true))]
  simp only [hph]
  rw [if_neg (by simp [htk] : ¬(s.token = true))]

/-- After a panic no thread steps. -/
lemma step_panicked {W U : Nat} {s : Sys W} (hp : s.panicked = true) (l : Lab W) :
    step W U s l = none := by
  simp only [step]
  rw [if_pos hp]

/-- A reachable stuck state is exactly a completed run: the observer has
exited via its Complete branch and the counter holds the total. -/
lemma stuck_done {W U : Nat} {s : Sys W} (hr : Reachable W U s) (hst : Stuck W U s) :
    s.phase = .done ∧ s.counter = W * U := by
  have hi := reachable_inv hr
  have hpend : ∀ t, (s.w t).pending = none := by
    intro t
    cases hv : (s.w t).pending with
    | none => rfl
    | some v =>
        exfalso
        have hb := hst.2.1 t
        rw [stepB_eq hi.alive hv (hi.pend t v hv).1] at hb
        simp at hb
  have hrem : ∀ t, (s.w t).rem = 0 := by
    intro t
    by_contra hne
    have ha := hst.1 t
    rw [stepA_eq hi.alive (hpend t) (Nat.pos_of_ne_zero hne)] at ha
    simp at ha
  have hsum : (∑ t, (s.w t).rem) = 0 := Finset.sum_eq_zero (fun t _ => hrem t)
  have hcnt := hi.cnt
  have hcount : s.counter = W * U := by omega
  refine ⟨?_, hcount⟩
  have hobs := hst.2.2
  cases hph : s.phase with
  | checking =>
      exfalso
      rw [stepObs_done_eq hi.alive hph (le_of_eq hcount.symm)] at hobs
      simp at hobs
  | parking =>
      exfalso
      cases htk : s.token with
      | true => rw [stepObs_consume_eq hi.alive hph htk] at hobs; simp at hobs
      | false => rw [stepObs_block_eq hi.alive hph htk] at hobs; simp at hobs
  | blocked =>
      exfalso
      have hK := hi.blockK hph
      have hbusy : (∑ t, busyBit (s.w t)) = 0 :=
        Finset.sum_eq_zero (fun t _ => by simp [busyBit, hpend t])
      omega
  | done => rfl

/-- The measure drops across a `fetch_add` step, generic record form. -/
lemma V_lt_A {W : Nat} {s : Sys W} (t : Fin W) (wA : WSt)
    (hpd0 : (s.w t).pending = none)
    (hr : 0 < (s.w t).rem)
    (hrem : wA.rem = (s.w t).rem - 1)
    (hbA : busyBit wA = 1) :
    V { counter := s.counter + 1, maxDiff := s.maxDiff, token := s.token,
        phase := s.phase, lastRead := s.lastRead, obsReads := s.obsReads,
        panicked := s.panicked, w := Function.update s.w t wA } < V s := by
  have hR := sum_proj_update s.w t wA WSt.rem
  have hB := sum_proj_update s.w t wA busyBit
  have hb0 : busyBit (s.w t) = 0 := by simp [busyBit, hpd0]
  simp only [V]
  dsimp only
  omega

/-- The measure drops across an iteration-body step, generic record form. -/
lemma V_lt_B {W : Nat} {s : Sys W} (t : Fin W) {v : Nat} (wB : WSt)
    (hv : (s.w t).pending = some v)
    (hrem : wB.rem = (s.w t).rem)
    (hpd : wB.pending = none)
    (newMD : Nat) (newPhase : OPhase) (newToken : Bool)
    (hPT : (s.phase = .blocked ∧ newPhase = .checking ∧ newToken = s.token) ∨
           (newPhase = s.phase ∧ newToken = true)) :
    V { counter := s.counter, maxDiff := newMD, token := newToken,
        phase := newPhase, lastRead := s.lastRead, obsReads := s.obsReads,
        panicked := s.panicked, w := Function.update s.w t wB } < V s := by
  have hR := sum_proj_update s.w t wB WSt.rem
  have hRe : (∑ x, (Function.update s.w t wB x).rem) = ∑ x, (s.w x).rem := by
    rw [hrem] at hR
    exact add_right_cancel hR
  have hB := sum_proj_update s.w t wB busyBit
  have hb1 : busyBit (s.w t) = 1 := by simp [busyBit, hv]
  have hb0 : busyBit wB = 0 := by simp [busyBit, hpd]
  have htb : (if s.token = true then 1 else 0) ≤ 1 := by
    cases s.token <;> simp
  simp only [V]
  dsimp only
  rcases hPT with ⟨hb, hph2, htk2⟩ | ⟨hph2, htk2⟩
  · rw [hb, hph2, htk2]
    simp only [phaseWeight]
    omega
  · rw [hph2, htk2]
    have hpw : phaseWeight s.phase ≤ 2 := by
      cases s.phase <;> simp [phaseWeight]
    simp only [if_true]
    omega

/-- The measure drops when the `expect` fires. -/
lemma V_lt_panic {W : Nat} {s : Sys W} (hnp : s.panicked = false) :
    V (panicState s) < V s := by
  simp only [V, panicState]
  rw [hnp]
  simp

/-- Every enabled step strictly decreases the termination measure: all
executions of the system are finite. -/
lemma step_V_lt {W U : Nat} {s s1 : Sys W} {l : Lab W}
    (h : step W U s l = some s1) : V s1 < V s := by
  cases hp : s.panicked with
  | true => rw [step_panicked hp] at h; exact Option.noConfusion h
  | false =>
      cases l with
      | workA t =>
          by_cases hg : (s.w t).pending = none ∧ 0 < (s.w t).rem
          · rw [stepA_eq hp hg.1 hg.2] at h
            injection h with h1
            rw [← h1]
            exact V_lt_A t
              { s.w t with
                rem := (s.w t).rem - 1,
                pending := some s.counter,
                wlog := (s.w t).wlog ++ [s.counter] }
              hg.1 hg.2 rfl rfl
          · simp only [step] at h
            rw [if_neg (by simp [hp] : ¬(s.panicked = true)), if_neg hg] at h
            exact Option.noConfusion h
      | workB t =>
          cases hv : (s.w t).pending with
          | none =>
              simp only [step] at h
              rw [if_neg (by simp [hp] : ¬(s.panicked = true))] at h
              simp only [hv] at h
              exact Option.noConfusion h
          | some v =>
              by_cases hle : (s.w t).last ≤ v
              · rw [stepB_eq hp hv hle] at h
                injection h with h1
                rw [← h1]
                unfold wake
                by_cases hb : (fetchMaxUpd s t v (v - (s.w t).last)).phase = .blocked
                · rw [if_pos hb]
                  have hb2 : s.phase = OPhase.blocked := hb
                  exact V_lt_B t
                    { s.w t with
                      pending := none,
                      last := v,
                      localMax := (if (s.w t).localMax < v - (s.w t).last
                        then v - (s.w t).last else (s.w t).localMax),
                      plog := (s.w t).plog ++ [v] }
                    hv rfl rfl _ _ _ (Or.inl ⟨hb2, rfl, rfl⟩)
                · rw [if_neg hb]
                  exact V_lt_B t
                    { s.w t with
                      pending := none,
                      last := v,
                      localMax := (if (s.w t).localMax < v - (s.w t).last
                        then v - (s.w t).last else (s.w t).localMax),
                      plog := (s.w t).plog ++ [v] }
                    hv rfl rfl _ _ _ (Or.inr ⟨rfl, rfl⟩)
              · rw [stepB_panic_eq hp hv (by omega)] at h
                injection h with h1
                rw [← h1]
                exact V_lt_panic hp
      | obs =>
          cases hph : s.phase with
          | checking =>
              by_cases hc : W * U ≤ s.counter
              · rw [stepObs_done_eq hp hph hc] at h
                injection h with h1
                rw [← h1]
                simp only [V]
                dsimp only
                rw [hph]
                simp [phaseWeight]
              · rw [stepObs_park_eq hp hph (by omega)] at h
                injection h with h1
                rw [← h1]
                simp only [V]
                dsimp only
                rw [hph]
                simp [phaseWeight]
          | parking =>
              cases htk : s.token with
              | true =>
                  rw [stepObs_consume_eq hp hph htk] at h
                  injection h with h1
                  rw [← h1]
                  simp only [V]
                  dsimp only
                  rw [hph, htk]
                  simp [phaseWeight]
              | false =>
                  rw [stepObs_block_eq hp hph htk] at h
                  injection h with h1
                  rw [← h1]
                  simp only [V]
                  dsimp only
                  rw [hph]
                  simp [phaseWeight]
          | blocked =>
              simp only [step] at h
              rw [if_neg (by simp [hp] : ¬(s.panicked = true))] at h
              simp only [hph] at h
              exact Option.noConfusion h
          | done =>
              simp only [step] at h
              rw [if_neg (by simp [hp] : ¬(s.panicked = true))] at h
              simp only [hph] at h
              exact Option.noConfusion h

/-- C1: Gaplessness: in every reachable state of the Fetch_&_Modify system,
that is, under any interleaving of the worker steps, the multiset of
pre-increment values returned by the `fetch_add` calls performed so far is
exactly `{0, ..., counter - 1}` with no duplicates and no gaps; when all
workers have finished their `U` units (`W` workers, with
`W = NUM_THREADS = 50` and `U = ADDS_PER_THREAD = 100` in the code), the
counter equals `W * U` and the multiset of returned values is exactly
`{0, 1, ..., W * U - 1}`. -/
theorem C1_gaplessness (W U : Nat) (s : Sys W) (hr : Reachable W U s) :
    (∑ t, mlog (s.w t)) = Multiset.range s.counter ∧
    ((∀ t, (s.w t).rem = 0) →
      s.counter = W * U ∧ (∑ t, mlog (s.w t)) = Multiset.range (W * U)) := by
  have hi := reachable_inv hr
  refine ⟨hi.log, ?_⟩
  intro hrem
  have hsum : (∑ t, (s.w t).rem) = 0 := Finset.sum_eq_zero (fun t _ => hrem t)
  have hcnt := hi.cnt
  have hcount : s.counter = W * U := by omega
  exact ⟨hcount, by rw [hi.log, hcount]⟩

/-- Witness for C1 at a concrete completed run (one worker, one unit). -/
theorem C1_gaplessness_witness :
    (∑ t, mlog (s11.w t)) = Multiset.range s11.counter ∧
    (s11.counter = 1 * 1 ∧ (∑ t, mlog (s11.w t)) = Multiset.range (1 * 1)) := by
  have h := C1_gaplessness 1 1 s11
    (reachable_of_run 1 1 [Lab.workA 0, Lab.workB 0] Reachable.init rfl (init 1 1))
  exact ⟨h.1, h.2 (by decide)⟩

/-- C9: the worker loop `for _ in t..(t + ADDS_PER_THREAD)` performs exactly
`ADDS_PER_THREAD` iterations whatever the worker index `t` is, so the total
number of `fetch_add` calls across the `NUM_THREADS` workers of a run is
exactly `NUM_THREADS * ADDS_PER_THREAD`. -/
theorem C9_loop_length :
    (∀ t : Nat, (rustRange t (t + ADDS_PER_THREAD)).length = ADDS_PER_THREAD) ∧
    ((rustRange 0 NUM_THREADS).map
        (fun t => (rustRange t (t + ADDS_PER_THREAD)).length)).sum
      = NUM_THREADS * ADDS_PER_THREAD := by
  constructor
  · intro t
    simp [rustRange]
  · simp [rustRange, NUM_THREADS, ADDS_PER_THREAD, List.map_const]

/-- C3: the observer declares completion exactly when the counter has
reached the total: in every reachable state where the observer has exited
its loop the counter is at least `W * U`; the only transition that exits the
loop is an observer step whose load saw at least `W * U`; and when the
observer's check loads a value below the total it suspends (moves to
parking) instead of exiting. -/
theorem C3_complete_exact (W U : Nat) :
    (∀ s : Sys W, Reachable W U s → s.phase = .done → W * U ≤ s.counter) ∧
    (∀ (s s1 : Sys W) (l : Lab W), step W U s l = some s1 →
      s.phase ≠ .done → s1.phase = .done → l = .obs ∧ W * U ≤ s.counter) ∧
    (∀ s s1 : Sys W, s.phase = .checking → s.counter < W * U →
      step W U s .obs = some s1 → s1.phase = .parking) := by
  refine ⟨?_, ?_, ?_⟩
  · intro s hr hd
    exact (reachable_inv hr).done_ge hd
  · intro s s1 l h hnd hd
    cases hp : s.panicked with
    | true => rw [step_panicked hp] at h; exact Option.noConfusion h
    | false =>
        cases l with
        | workA t =>
            by_cases hg : (s.w t).pending = none ∧ 0 < (s.w t).rem
            · rw [stepA_eq hp hg.1 hg.2] at h
              injection h with h1
              rw [← h1] at hd
              exact absurd hd hnd
            · simp only [step] at h
              rw [if_neg (by simp [hp] : ¬(s.panicked = true)), if_neg hg] at h
              exact Option.noConfusion h
        | workB t =>
            cases hv : (s.w t).pending with
            | none =>
                simp only [step] at h
                rw [if_neg (by simp [hp] : ¬(s.panicked = true))] at h
                simp only [hv] at h
                exact Option.noConfusion h
            | some v =>
                by_cases hle : (s.w t).last ≤ v
                · rw [stepB_eq hp hv hle] at h
                  injection h with h1
                  rw [← h1] at hd
                  unfold wake at hd
                  by_cases hb : (fetchMaxUpd s t v (v - (s.w t).last)).phase = .blocked
                  · rw [if_pos hb] at hd
                    exact absurd hd (by simp)
                  · rw [if_neg hb] at hd
                    exact absurd hd hnd
                · rw [stepB_panic_eq hp hv (by omega)] at h
                  injection h with h1
                  rw [← h1] at hd
                  exact absurd hd hnd
        | obs =>
            cases hph : s.phase with
            | checking =>
                by_cases hc : W * U ≤ s.counter
                · exact ⟨rfl, hc⟩
                · rw [stepObs_park_eq hp hph (by omega)] at h
                  injection h with h1
                  rw [← h1] at hd
                  exact absurd hd (by simp)
            | parking =>
                cases htk : s.token with
                | true =>
                    rw [stepObs_consume_eq hp hph htk] at h
                    injection h with h1
                    rw [← h1] at hd
                    exact absurd hd (by simp)
                | false =>
                    rw [stepObs_block_eq hp hph htk] at h
                    injection h with h1
                    rw [← h1] at hd
                    exact absurd hd (by simp)
            | blocked =>
                simp only [step] at h
                rw [if_neg (by simp [hp] : ¬(s.panicked = true))] at h
                simp only [hph] at h
                exact Option.noConfusion h
            | done => exact absurd hph hnd
  · intro s s1 hph hc h
    cases hp : s.panicked with
    | true => rw [step_panicked hp] at h; exact Option.noConfusion h
    | false =>
        rw [stepObs_park_eq hp hph hc] at h
        injection h with h1
        rw [← h1]

/-- Witness for C3 at concrete runs: a zero-unit run completes at once, a
transition into the done phase is an observer step seeing a full counter,
and an observer check below the total parks. -/
theorem C3_complete_exact_witness :
    (1 * 0 ≤ sDone.counter) ∧
    ((Lab.obs : Lab 1) = Lab.obs ∧ 1 * 0 ≤ (init 1 0).counter) ∧
    sPark.phase = .parking := by
  refine ⟨?_, ?_, ?_⟩
  · exact (C3_complete_exact 1 0).1 sDone
      (reachable_of_run 1 0 [Lab.obs] Reachable.init rfl (init 1 0)) rfl
  · exact (C3_complete_exact 1 0).2.1 (init 1 0) sDone .obs rfl
      (by decide) rfl
  · exact (C3_complete_exact 1 1).2.2 (init 1 1) sPark rfl (by decide) rfl

/-- C4: `report_completion` effect: the `fetch_add` step increments the
shared counter by exactly 1 and hands the worker the value the counter held
immediately prior (stored in `pending`, appended to the worker's return
log); the rest of the iteration body, which performs the `unpark`, is always
enabled (the reporting worker never blocks) and signals the observer: it
wakes a blocked observer, and otherwise leaves the park token available. -/
theorem C4_report_completion (W U : Nat) :
    (∀ (s s1 : Sys W) (t : Fin W), step W U s (.workA t) = some s1 →
      s1.counter = s.counter + 1 ∧ (s1.w t).pending = some s.counter ∧
      (s1.w t).wlog = (s.w t).wlog ++ [s.counter]) ∧
    (∀ (s : Sys W) (t : Fin W) (v : Nat), s.panicked = false →
      (s.w t).pending = some v → (s.w t).last ≤ v →
      (step W U s (.workB t)).isSome = true ∧
      (∀ s1, step W U s (.workB t) = some s1 →
        (s.phase = .blocked → s1.phase = .checking) ∧
        (s.phase ≠ .blocked → s1.token = true))) := by
  constructor
  · intro s s1 t h
    cases hp : s.panicked with
    | true => rw [step_panicked hp] at h; exact Option.noConfusion h
    | false =>
        by_cases hg : (s.w t).pending = none ∧ 0 < (s.w t).rem
        · rw [stepA_eq hp hg.1 hg.2] at h
          injection h with h1
          rw [← h1]
          refine ⟨rfl, ?_, ?_⟩ <;> dsimp only <;> rw [Function.update_same]
        · simp only [step] at h
          rw [if_neg (by simp [hp] : ¬(s.panicked = true)), if_neg hg] at h
          exact Option.noConfusion h
  · intro s t v hp hv hle
    rw [stepB_eq hp hv hle]
    refine ⟨rfl, ?_⟩
    intro s1 h1
    injection h1 with h2
    rw [← h2]
    unfold wake
    by_cases hb : (fetchMaxUpd s t v (v - (s.w t).last)).phase = .blocked
    · rw [if_pos hb]
      have hb2 : s.phase = OPhase.blocked := hb
      exact ⟨fun _ => rfl, fun hnb => absurd hb2 hnb⟩
    · rw [if_neg hb]
      have hb2 : ¬s.phase = OPhase.blocked := hb
      exact ⟨fun hblk => absurd hblk hb2, fun _ => rfl⟩

/-- Witness for C4 at a concrete step: the first `fetch_add` of a one-worker
run, followed by its enabled unpark half. -/
theorem C4_report_completion_witness :
    (sA.counter = (init 1 1).counter + 1 ∧ (sA.w 0).pending = some (init 1 1).counter ∧
      (sA.w 0).wlog = ((init 1 1).w 0).wlog ++ [(init 1 1).counter]) ∧
    (step 1 1 sA (.workB 0)).isSome = true ∧ sB.token = true := by
  refine ⟨?_, ?_, ?_⟩
  · exact (C4_report_completion 1 1).1 (init 1 1) sA 0 rfl
  · exact ((C4_report_completion 1 1).2 sA 0 0 rfl rfl (by decide)).1
  · exact (((C4_report_completion 1 1).2 sA 0 0 rfl rfl (by decide)).2 sB rfl).2
      (by decide)

/-- Observer steps leave the counter, the max-diff atomic and the worker
states untouched. -/
lemma stepObs_fields {W U : Nat} {s s1 : Sys W} (h : step W U s .obs = some s1) :
    s1.maxDiff = s.maxDiff ∧ s1.counter = s.counter ∧ s1.w = s.w := by
  simp only [step] at h
  split at h
  · exact Option.noConfusion h
  · split at h
    · split at h <;> (injection h with h1; rw [← h1]; exact ⟨rfl, rfl, rfl⟩)
    · split at h <;> (injection h with h1; rw [← h1]; exact ⟨rfl, rfl, rfl⟩)
    · exact Option.noConfusion h
    · exact Option.noConfusion h

/-- C6: `atomic_max_diff` invariant: its value (a `usize`, hence never
negative) is monotonically non-decreasing across every step of any worker
and of the observer, and it changes only through the atomic maximum
(`fetch_max`) performed in a worker's iteration-body step. -/
theorem C6_maxdiff_monotone (W U : Nat) (s s1 : Sys W) (l : Lab W)
    (h : step W U s l = some s1) :
    0 ≤ s1.maxDiff ∧ s.maxDiff ≤ s1.maxDiff ∧
    (s1.maxDiff = s.maxDiff ∨
      ∃ t d, l = .workB t ∧ s1.maxDiff = max s.maxDiff d) := by
  refine ⟨Nat.zero_le _, ?_⟩
  cases hp : s.panicked with
  | true => rw [step_panicked hp] at h; exact Option.noConfusion h
  | false =>
      cases l with
      | workA t =>
          by_cases hg : (s.w t).pending = none ∧ 0 < (s.w t).rem
          · rw [stepA_eq hp hg.1 hg.2] at h
            injection h with h1
            rw [← h1]
            exact ⟨le_refl _, Or.inl rfl⟩
          · simp only [step] at h
            rw [if_neg (by simp [hp] : ¬(s.panicked = true)), if_neg hg] at h
            exact Option.noConfusion h
      | workB t =>
          cases hv : (s.w t).pending with
          | none =>
              simp only [step] at h
              rw [if_neg (by simp [hp] : ¬(s.panicked = true))] at h
              simp only [hv] at h
              exact Option.noConfusion h
          | some v =>
              by_cases hle : (s.w t).last ≤ v
              · rw [stepB_eq hp hv hle] at h
                injection h with h1
                have hmd : s1.maxDiff =
                    if (s.w t).localMax < v - (s.w t).last
                    then max s.maxDiff (v - (s.w t).last) else s.maxDiff := by
                  rw [← h1]
                  unfold wake
                  split <;> rfl
                by_cases hm : (s.w t).localMax < v - (s.w t).last
                · rw [if_pos hm] at hmd
                  refine ⟨by rw [hmd]; exact le_max_left _ _, ?_⟩
                  exact Or.inr ⟨t, v - (s.w t).last, rfl, hmd⟩
                · rw [if_neg hm] at hmd
                  exact ⟨le_of_eq hmd.symm, Or.inl hmd⟩
              · rw [stepB_panic_eq hp hv (by omega)] at h
                injection h with h1
                rw [← h1]
                exact ⟨le_refl _, Or.inl rfl⟩
      | obs =>
          have hf := (stepObs_fields h).1
          exact ⟨le_of_eq hf.symm, Or.inl hf⟩

/-- Witness for C6 at a concrete step: the unpark half of the first worker
iteration of a one-worker run. -/
theorem C6_maxdiff_monotone_witness :
    0 ≤ sB.maxDiff ∧ sA.maxDiff ≤ sB.maxDiff ∧
    (sB.maxDiff = sA.maxDiff ∨
      ∃ t d, (Lab.workB 0 : Lab 1) = .workB t ∧ sB.maxDiff = max sA.maxDiff d) :=
  C6_maxdiff_monotone 1 1 sA sB (.workB 0) rfl

/-- The card of a finite sum of multisets is the sum of the cards. -/
lemma multiset_card_finsum {α : Type} {n : Nat} (f : Fin n → Multiset α) :
    Multiset.card (∑ t, f t) = ∑ t, Multiset.card (f t) :=
  map_sum (⟨⟨Multiset.card, Multiset.card_zero⟩, Multiset.card_add⟩ :
    Multiset α →+ Nat) f Finset.univ

/-- C7: Completion liveness for finite `W` workers and `U` units each: every
step strictly decreases the measure `V`, so all executions are finite; a
reachable state where nothing can step any more has the observer completed,
the counter at `W * U`, and exactly `W * U` fetch_add calls performed in
total; and whenever the observer has declared completion the counter equals
`W * U` exactly. -/
theorem C7_completion_liveness (W U : Nat) :
    (∀ (s s1 : Sys W) (l : Lab W), step W U s l = some s1 → V s1 < V s) ∧
    (∀ s : Sys W, Reachable W U s → Stuck W U s →
      s.phase = .done ∧ s.counter = W * U ∧
        (∑ t, ((s.w t).wlog).length) = W * U) ∧
    (∀ s : Sys W, Reachable W U s → s.phase = .done → s.counter = W * U) := by
  have hlen : ∀ s : Sys W, Reachable W U s →
      (∑ t, ((s.w t).wlog).length) = s.counter := by
    intro s hr
    have hi := reachable_inv hr
    have hcard := congrArg Multiset.card hi.log
    rw [Multiset.card_range, multiset_card_finsum] at hcard
    rw [← hcard]
    apply Finset.sum_congr rfl
    intro t _
    rw [mlog, Multiset.coe_card]
  refine ⟨fun s s1 l h => step_V_lt h, ?_, ?_⟩
  · intro s hr hst
    obtain ⟨hph, hcnt⟩ := stuck_done hr hst
    exact ⟨hph, hcnt, by rw [hlen s hr, hcnt]⟩
  · intro s hr hd
    have hi := reachable_inv hr
    have h1 := hi.done_ge hd
    have h2 := hi.cnt
    omega

/-- Witness for C7: the zero-unit one-worker run is stuck after the first
observer check and satisfies all completion facts, and a concrete step
decreases the measure. -/
theorem C7_completion_liveness_witness :
    (V sA < V (init 1 1)) ∧
    (sDone.phase = .done ∧ sDone.counter = 1 * 0 ∧
      (∑ t, ((sDone.w t).wlog).length) = 1 * 0) ∧
    sDone.counter = 1 * 0 := by
  refine ⟨?_, ?_, ?_⟩
  · exact (C7_completion_liveness 1 1).1 (init 1 1) sA (.workA 0) rfl
  · exact (C7_completion_liveness 1 0).2.1 sDone
      (reachable_of_run 1 0 [Lab.obs] Reachable.init rfl (init 1 0))
      ⟨by decide, by decide, by decide⟩
  · exact (C7_completion_liveness 1 0).2.2 sDone
      (reachable_of_run 1 0 [Lab.obs] Reachable.init rfl (init 1 0)) rfl

/-- C5: negative-gap fail-fast: the worker's
`checked_sub(last).expect(...)` computation aborts the run exactly when the
newly observed counter value is below the worker's cursor (a negative gap),
and never aborts on a nonnegative gap; in the embedded system, the step that
meets a negative gap produces the panicked state, after which no thread
takes any further step. -/
theorem C5_negative_gap_fail_fast (W U : Nat) :
    (∀ incoming last, isFatal (observed_diff incoming last) = decide (incoming < last)) ∧
    (∀ (s : Sys W) (t : Fin W) (v : Nat), s.panicked = false →
      (s.w t).pending = some v → v < (s.w t).last →
      step W U s (.workB t) = some (panicState s) ∧
      ∀ l, step W U (panicState s) l = none) := by
  constructor
  · intro incoming last
    by_cases hle : last ≤ incoming
    · have hnlt : ¬(incoming < last) := by omega
      simp [observed_diff, checkedSub, hle, isFatal, hnlt]
    · have hlt : incoming < last := by omega
      simp [observed_diff, checkedSub, hle, isFatal, hlt]
  · intro s t v hp hv hlt
    refine ⟨stepB_panic_eq hp hv hlt, ?_⟩
    intro l
    exact step_panicked rfl l

/-- Witness for C5: a state whose worker observed 0 with cursor 5 panics
and freezes the whole system; the pure gap computation is fatal there. -/
theorem C5_negative_gap_fail_fast_witness :
    isFatal (observed_diff 0 5) = decide ((0 : Nat) < 5) ∧
    step 1 1 sBad (.workB 0) = some (panicState sBad) ∧
    step 1 1 (panicState sBad) (.workA 0) = none := by
  refine ⟨(C5_negative_gap_fail_fast 1 1).1 0 5, ?_, ?_⟩
  · exact ((C5_negative_gap_fail_fast 1 1).2 sBad 0 0 rfl rfl (by decide)).1
  · exact ((C5_negative_gap_fail_fast 1 1).2 sBad 0 0 rfl rfl (by decide)).2 (.workA 0)

/-- C2 counterexample: in the two-worker two-unit run `c2sched` the code's
final `atomic_max_diff` is 1, while the gap accounting the claim prescribes
(a single shared observer cursor over the observer's reads of the counter)
yields 2 under the cursor-from-zero reading and 0 under the strict
consecutive-pairs reading: the code's run-end value equals neither. -/
theorem C2_gap_counterexample :
    (run 2 1 (init 2 1) c2sched).isSome = true ∧
    c2end.maxDiff = 1 ∧
    c2end.obsReads = [2] ∧
    specObserverMaxGap c2end.obsReads = 2 ∧
    specPairwiseMaxGap c2end.obsReads = 0 ∧
    c2end.maxDiff ≠ specObserverMaxGap c2end.obsReads ∧
    c2end.maxDiff ≠ specPairwiseMaxGap c2end.obsReads := by
  refine ⟨rfl, rfl, rfl, rfl, rfl, by decide, by decide⟩

/-- C2 amended: what `atomic_max_diff` actually equals: at every reachable
quiescent state (no worker mid-iteration, in particular at run end) it is
the maximum over the workers of the largest gap between consecutive
`fetch_add` return values received by that worker, each worker's first
return measured against its own initial cursor 0.  The observer's reads of
the counter play no role in it. -/
theorem C2_amended_per_worker_gap (W U : Nat) (s : Sys W) (hr : Reachable W U s)
    (hq : ∀ t, (s.w t).pending = none) :
    s.maxDiff = Finset.univ.sup (fun t => maxGapFrom0 (s.w t).wlog) := by
  have hi := reachable_inv hr
  rw [hi.mx]
  apply Finset.sup_congr rfl
  intro t _
  have hw : (s.w t).wlog = (s.w t).plog := by
    rw [hi.wp t, hq t]
    simp
  rw [hw, maxGapFrom0, hi.gf t]

/-- Witness for the amended C2 at the end of the `c2sched` run. -/
theorem C2_amended_per_worker_gap_witness :
    c2end.maxDiff = Finset.univ.sup (fun t => maxGapFrom0 (c2end.w t).wlog) :=
  C2_amended_per_worker_gap 2 1 c2end
    (reachable_of_run 2 1 c2sched Reachable.init rfl (init 2 1))
    (by decide)

/-- C8: `plus_just_one` is the optimistic load / compute-new-from-current /
atomic conditional replace / retry-with-freshly-observed-value loop, and
whenever a call returns, the returned pair satisfies
`new_value - previous_value = 1`, with the atomic left exactly one above the
reported previous value; hence the run's final all-diffs-are-one check
(`no_non_one_diffs`) passes on any collection of results of such calls. -/
theorem C8_plus_just_one_diff_one :
    (∀ (current : Int) (env : List (Int × Bool)) (p n f : Int),
      plus_just_one current env = .ret p n f →
      n - p = 1 ∧ n = p + 1 ∧ f = p + 1) ∧
    (∀ results : List (Int × Int),
      (∀ pr ∈ results, pr.2 - pr.1 = 1) → no_non_one_diffs results = true) := by
  constructor
  · intro current env
    induction env generalizing current with
    | nil => intro p n f h; simp [plus_just_one] at h
    | cons e env ih =>
        obtain ⟨mem, sp⟩ := e
        intro p n f h
        rw [plus_just_one] at h
        by_cases hc : mem = current ∧ sp = false
        · rw [if_pos hc, if_pos hc.1] at h
          injection h with e1 e2 e3
          subst e1; subst e2; subst e3
          rw [hc.1]
          refine ⟨by omega, rfl, rfl⟩
        · rw [if_neg hc] at h
          exact ih mem p n f h
  · intro results
    induction results with
    | nil => intro _; rfl
    | cons r rs ih =>
        intro hall
        have hr : r.2 - r.1 = 1 := hall r (by simp)
        have hne : ¬(r.2 - r.1 ≠ 1) := by omega
        simp only [no_non_one_diffs, List.foldl, if_neg hne]
        exact ih (fun pr hpr => hall pr (List.mem_cons_of_mem r hpr))

/-- Witness for C8 at a concrete call: initial load 5, one clean
compare-exchange attempt; and the final check on its result. -/
theorem C8_plus_just_one_diff_one_witness :
    ((6 : Int) - 5 = 1 ∧ (6 : Int) = 5 + 1 ∧ (6 : Int) = 5 + 1) ∧
    no_non_one_diffs [((5 : Int), (6 : Int))] = true := by
  refine ⟨?_, ?_⟩
  · exact C8_plus_just_one_diff_one.1 5 [(5, false)] 5 6 6 rfl
  · exact C8_plus_just_one_diff_one.2 [(5, 6)] (by decide)

/-- C10: the `unreachable!` inside the `Ok` arm of `plus_just_one` never
executes: a successful `compare_exchange_weak` returns exactly the expected
`current`, so the guard `previous_value != current` is false on every
reachable path, for every initial load and every interference oracle. -/
theorem C10_unreachable_never_hit (current : Int) (env : List (Int × Bool)) :
    hitsUnreachable (plus_just_one current env) = false := by
  induction env generalizing current with
  | nil => rfl
  | cons e env ih =>
      obtain ⟨mem, sp⟩ := e
      rw [plus_just_one]
      by_cases hc : mem = current ∧ sp = false
      · rw [if_pos hc, if_pos hc.1]
        rfl
      · rw [if_neg hc]
        exact ih mem

end SimpleAtomic
